import Mathlib

/-!
# Verification of the `war-rust` fixed-capacity ring buffer

A shallow embedding of `src/ring_buffer.rs` and the relevant part of
`src/cards.rs` (the `PlayerHand::take_battle_cards` transfer), together
with theorems settling the specification claims about them.

The Rust type `RingBuffer<T, N>` stores a fixed array `[T; N]` plus the
indices `head`, `tail` and the element count.  All array accesses in the
source are taken at indices reduced modulo `N` (or produced by the
conditional-decrement idiom), so the backing array is embedded as a total
function `Nat → T`: under the representation invariant every index the
code reads or writes is `< N`, and the embedding agrees with the Rust
array at exactly those indices.  Each mutating Rust method `&mut self`
becomes a Lean function returning the result paired with the new state.
-/

namespace WarRust

/-- The state of `RingBuffer<T, N>` from `src/ring_buffer.rs`:
backing storage, write index `head`, read index `tail`, element count. -/
structure RingBuffer (T : Type) (N : Nat) where
  buffer : Nat → T
  head : Nat
  tail : Nat
  count : Nat

namespace RingBuffer

variable {T : Type} {N : Nat}

/-- `RingBuffer::new(default_value)`: every slot holds the filler value,
`head = tail = count = 0`. -/
def new (default_value : T) : RingBuffer T N :=
  { buffer := fun _ => default_value, head := 0, tail := 0, count := 0 }

/-- `RingBuffer::len`. -/
def len (rb : RingBuffer T N) : Nat := rb.count

/-- `RingBuffer::is_empty`. -/
def is_empty (rb : RingBuffer T N) : Bool := rb.count == 0

/-- `RingBuffer::is_full`. -/
def is_full (rb : RingBuffer T N) : Bool := rb.count == N

/-- `RingBuffer::capacity`. -/
def capacity (_rb : RingBuffer T N) : Nat := N

/-- `RingBuffer::push_back`: reject when full; otherwise write at `head`,
advance `head` modulo `N`, increment `count`. -/
def push_back (rb : RingBuffer T N) (item : T) : Bool × RingBuffer T N :=
  if rb.is_full then (false, rb)
  else
    (true,
      { rb with
        buffer := fun i => if i = rb.head then item else rb.buffer i
        head := (rb.head + 1) % N
        count := rb.count + 1 })

/-- `RingBuffer::pop_front`: none when empty; otherwise read at `tail`,
advance `tail` modulo `N`, decrement `count`. -/
def pop_front (rb : RingBuffer T N) : Option T × RingBuffer T N :=
  if rb.is_empty then (none, rb)
  else
    (some (rb.buffer rb.tail),
      { rb with
        tail := (rb.tail + 1) % N
        count := rb.count - 1 })

/-- `RingBuffer::push_front`: reject when full; otherwise decrement `tail`
with wraparound, write at the new `tail`, increment `count`. -/
def push_front (rb : RingBuffer T N) (item : T) : Bool × RingBuffer T N :=
  if rb.is_full then (false, rb)
  else
    let t := if rb.tail == 0 then N - 1 else rb.tail - 1
    (true,
      { rb with
        buffer := fun i => if i = t then item else rb.buffer i
        tail := t
        count := rb.count + 1 })

/-- `RingBuffer::pop_back`: none when empty; otherwise decrement `head`
with wraparound, read there, decrement `count`. -/
def pop_back (rb : RingBuffer T N) : Option T × RingBuffer T N :=
  if rb.is_empty then (none, rb)
  else
    let h := if rb.head == 0 then N - 1 else rb.head - 1
    (some (rb.buffer h),
      { rb with
        head := h
        count := rb.count - 1 })

/-- The loop body of `RingBuffer::push_front_multiple`: push each element
of `l` to the front in order, stopping at the first rejection; `added`
accumulates the number inserted. -/
def pfmLoop (rb : RingBuffer T N) (l : List T) (added : Nat) :
    Nat × RingBuffer T N :=
  match l with
  | [] => (added, rb)
  | item :: rest =>
    match rb.push_front item with
    | (true, rb') => pfmLoop rb' rest (added + 1)
    | (false, _) => (added, rb)

/-- `RingBuffer::push_front_multiple`: iterates over `items.rev()`. -/
def push_front_multiple (rb : RingBuffer T N) (items : List T) :
    Nat × RingBuffer T N :=
  pfmLoop rb items.reverse 0

/-- The loop body of `RingBuffer::push_back_multiple`: push each element
of `l` to the back in order, stopping at the first rejection. -/
def pbmLoop (rb : RingBuffer T N) (l : List T) (added : Nat) :
    Nat × RingBuffer T N :=
  match l with
  | [] => (added, rb)
  | item :: rest =>
    match rb.push_back item with
    | (true, rb') => pbmLoop rb' rest (added + 1)
    | (false, _) => (added, rb)

/-- `RingBuffer::push_back_multiple`: iterates over `items` in order. -/
def push_back_multiple (rb : RingBuffer T N) (items : List T) :
    Nat × RingBuffer T N :=
  pbmLoop rb items 0

/-- `RingBuffer::front`: peek at `tail` without mutation. -/
def front (rb : RingBuffer T N) : Option T :=
  if rb.is_empty then none else some (rb.buffer rb.tail)

/-- `RingBuffer::back`: peek at the slot before `head` without mutation. -/
def back (rb : RingBuffer T N) : Option T :=
  if rb.is_empty then none
  else some (rb.buffer (if rb.head == 0 then N - 1 else rb.head - 1))

/-- `RingBuffer::clear`: reset the pointers and count, keep the slots. -/
def clear (rb : RingBuffer T N) : RingBuffer T N :=
  { rb with head := 0, tail := 0, count := 0 }

end RingBuffer

/-- The state of `RingBufferIter<T, N>`: a reference to the buffer, the
current read index, and the number of elements remaining. -/
structure RingBufferIter (T : Type) (N : Nat) where
  buffer : RingBuffer T N
  current : Nat
  remaining : Nat

/-- `RingBuffer::iter`: start at `tail` with `count` elements remaining. -/
def RingBuffer.iter {T : Type} {N : Nat} (rb : RingBuffer T N) :
    RingBufferIter T N :=
  { buffer := rb, current := rb.tail, remaining := rb.count }

namespace RingBufferIter

variable {T : Type} {N : Nat}

/-- `RingBufferIter::next`: none when `remaining == 0`; otherwise read at
`current`, advance it modulo `N`, decrement `remaining`. -/
def next (it : RingBufferIter T N) : Option T × RingBufferIter T N :=
  if it.remaining == 0 then (none, it)
  else
    (some (it.buffer.buffer it.current),
      { it with
        current := (it.current + 1) % N
        remaining := it.remaining - 1 })

/-- `RingBufferIter::size_hint`: `(remaining, Some(remaining))`. -/
def size_hint (it : RingBufferIter T N) : Nat × Option Nat :=
  (it.remaining, some it.remaining)

/-- Drain the iterator by repeated `next` calls, with explicit fuel (the
iterator yields at most `remaining` elements, so any fuel of at least
`it.remaining` collects the whole yielded sequence). -/
def drain : Nat → RingBufferIter T N → List T
  | 0, _ => []
  | fuel + 1, it =>
    match it.next with
    | (none, _) => []
    | (some x, it') => x :: drain fuel it'

/-- The full finite sequence an iterator yields. -/
def toList (it : RingBufferIter T N) : List T :=
  it.drain it.remaining

end RingBufferIter

namespace RingBuffer

variable {T : Type} {N : Nat}

/-! ## Specification-side abstractions -/

/-- The logical front-to-back contents: the `count` live slots reachable
by walking forward from `tail` modulo `N`. -/
def toList (rb : RingBuffer T N) : List T :=
  (List.range rb.count).map (fun i => rb.buffer ((rb.tail + i) % N))

/-- The representation invariant: pointer bounds, the count bound, and the
relation tying `head` to `tail` and `count`. -/
def Inv (rb : RingBuffer T N) : Prop :=
  rb.head < N ∧ rb.tail < N ∧ rb.count ≤ N ∧
    rb.head = (rb.tail + rb.count) % N

instance (rb : RingBuffer T N) : Decidable rb.Inv :=
  decidable_of_iff
    (rb.head < N ∧ rb.tail < N ∧ rb.count ≤ N ∧
      rb.head = (rb.tail + rb.count) % N)
    Iff.rfl

/-- Drain the buffer by repeated `pop_front` calls, with explicit fuel. -/
def drainFront : Nat → RingBuffer T N → List T
  | 0, _ => []
  | fuel + 1, rb =>
    match rb.pop_front with
    | (none, _) => []
    | (some x, rb') => x :: drainFront fuel rb'

/-- Everything repeated `pop_front` calls return until exhaustion. -/
def popAll (rb : RingBuffer T N) : List T :=
  drainFront rb.count rb

/-- A bare sequence of `push_back` calls (each attempted, rejections
leaving the state unchanged). -/
def pushBackAll (rb : RingBuffer T N) (xs : List T) : RingBuffer T N :=
  xs.foldl (fun r x => (r.push_back x).2) rb

/-- A bare sequence of `push_front` calls (each attempted, rejections
leaving the state unchanged). -/
def pushFrontAll (rb : RingBuffer T N) (xs : List T) : RingBuffer T N :=
  xs.foldl (fun r x => (r.push_front x).2) rb

/-! ## The public mutating interface as an operation alphabet -/

/-- One call of the public interface of `ring_buffer.rs`.  The read-only
methods `front`, `back` and `iter` take `&self` in the source and cannot
alter the state; they appear as identity steps. -/
inductive Op (T : Type) where
  | pushBackOp : T → Op T
  | pushFrontOp : T → Op T
  | popBackOp : Op T
  | popFrontOp : Op T
  | pushBackMultipleOp : List T → Op T
  | pushFrontMultipleOp : List T → Op T
  | clearOp : Op T
  | frontOp : Op T
  | backOp : Op T
  | iterOp : Op T

/-- The state after one public call. -/
def applyOp (rb : RingBuffer T N) : Op T → RingBuffer T N
  | .pushBackOp x => (rb.push_back x).2
  | .pushFrontOp x => (rb.push_front x).2
  | .popBackOp => (rb.pop_back).2
  | .popFrontOp => (rb.pop_front).2
  | .pushBackMultipleOp xs => (rb.push_back_multiple xs).2
  | .pushFrontMultipleOp xs => (rb.push_front_multiple xs).2
  | .clearOp => rb.clear
  | .frontOp => rb
  | .backOp => rb
  | .iterOp => rb

/-- The state after a sequence of public calls. -/
def runOps (rb : RingBuffer T N) (ops : List (Op T)) : RingBuffer T N :=
  ops.foldl applyOp rb

end RingBuffer

/-! ## Cards (`src/cards.rs`) -/

/-- `Suit` from `cards.rs` (`repr(u8)` with discriminants 0-3). -/
inductive Suit where
  | Hearts
  | Spades
  | Clubs
  | Diamonds
  deriving DecidableEq

/-- The `u8` discriminant of a suit (`suit as u8`). -/
def Suit.toU8 : Suit → Nat
  | .Hearts => 0
  | .Spades => 1
  | .Clubs => 2
  | .Diamonds => 3

/-- `Rank` from `cards.rs` (`repr(u8)` with discriminants 2-14). -/
inductive Rank where
  | Two
  | Three
  | Four
  | Five
  | Six
  | Seven
  | Eight
  | Nine
  | Ten
  | Jack
  | Queen
  | King
  | Ace
  deriving DecidableEq

/-- The `u8` discriminant of a rank (`rank as u8`). -/
def Rank.toU8 : Rank → Nat
  | .Two => 2
  | .Three => 3
  | .Four => 4
  | .Five => 5
  | .Six => 6
  | .Seven => 7
  | .Eight => 8
  | .Nine => 9
  | .Ten => 10
  | .Jack => 11
  | .Queen => 12
  | .King => 13
  | .Ace => 14

/-- `Card`: one packed byte, bits 0-1 the suit, bits 2-7 the rank.  All
values stay below 64, so the `u8` arithmetic never wraps. -/
structure Card where
  val : Nat
  deriving DecidableEq

/-- `Card::new`: `(rank_bits << 2) | suit_bits` with the source's masks. -/
def Card.new (suit : Suit) (rank : Rank) : Card :=
  ⟨((rank.toU8 &&& 63) <<< 2) ||| (suit.toU8 &&& 3)⟩

/-- `PlayerHand` from `cards.rs`: a `RingBuffer<Card, 52>`. -/
structure PlayerHand where
  cards : RingBuffer Card 52

/-- `PlayerHand::new`: an empty hand, filler Two of Hearts. -/
def PlayerHand.new : PlayerHand :=
  ⟨RingBuffer.new (Card.new Suit.Hearts Rank.Two)⟩

/-- `PlayerHand::take_battle_cards`: `for card in battle_buffer.iter()
{ self.cards.push_front(card); }` — every card the battle buffer's
iterator yields is pushed to the front of the hand, the boolean result
of each `push_front` being discarded. -/
def PlayerHand.take_battle_cards (h : PlayerHand)
    (battle_buffer : RingBuffer Card 52) : PlayerHand :=
  ⟨(battle_buffer.iter.toList).foldl
    (fun cards card => (cards.push_front card).2) h.cards⟩

namespace RingBuffer

variable {T : Type} {N : Nat}

/-! ## Arithmetic helpers -/

lemma mod_add_cancel_ne {N c i t : Nat} (hc : c < N) (hi : i < c) :
    (t + i) % N ≠ (t + c) % N := by
  intro h
  have h' : t + i ≡ t + c [MOD N] := h
  have h2 : i ≡ c [MOD N] := Nat.ModEq.add_left_cancel' t h'
  have h3 : i % N = c % N := h2
  rw [Nat.mod_eq_of_lt (hi.trans hc), Nat.mod_eq_of_lt hc] at h3
  omega

lemma mod_pred_eq {N m : Nat} (hN : 0 < N) (hm : 0 < m) :
    (m - 1) % N = if m % N = 0 then N - 1 else m % N - 1 := by
  have hdm := (Nat.div_add_mod m N).symm
  have hrlt : m % N < N := Nat.mod_lt _ hN
  by_cases h0 : m % N = 0
  · rw [if_pos h0]
    rw [h0, Nat.add_zero] at hdm
    have hq1 : m / N ≠ 0 := by
      intro hq
      rw [hq, Nat.mul_zero] at hdm
      omega
    have key : m - 1 = N * (m / N - 1) + (N - 1) := by
      have h1 : N * (m / N) = N * (m / N - 1) + N := by
        conv_lhs =>
          rw [show m / N = (m / N - 1) + 1 from
            (Nat.succ_pred_eq_of_pos (Nat.pos_of_ne_zero hq1)).symm]
        rw [Nat.mul_add, Nat.mul_one]
      omega
    rw [key, Nat.mul_add_mod, Nat.mod_eq_of_lt (by omega)]
  · rw [if_neg h0]
    have key : m - 1 = N * (m / N) + (m % N - 1) := by
      have hp : 0 < m % N := Nat.pos_of_ne_zero h0
      omega
    rw [key, Nat.mul_add_mod, Nat.mod_eq_of_lt (by omega)]

lemma map_range_congr {α : Type} {f g : Nat → α} {n : Nat}
    (h : ∀ i, i < n → f i = g i) :
    (List.range n).map f = (List.range n).map g := by
  induction n with
  | zero => rfl
  | succ k ih =>
    rw [List.range_succ, List.map_append, List.map_append,
      ih (fun i hi => h i (hi.trans (Nat.lt_succ_self k)))]
    simp [h k (Nat.lt_succ_self k)]

/-! ## Basic facts about single operations -/

@[simp] lemma toList_length (rb : RingBuffer T N) :
    rb.toList.length = rb.count := by
  simp [toList]

lemma is_full_false {rb : RingBuffer T N} (h : rb.count ≠ N) :
    rb.is_full = false := by
  simp [is_full, h]

lemma is_full_true {rb : RingBuffer T N} (h : rb.count = N) :
    rb.is_full = true := by
  simp [is_full, h]

lemma is_empty_false {rb : RingBuffer T N} (h : rb.count ≠ 0) :
    rb.is_empty = false := by
  simp [is_empty, h]

lemma is_empty_true {rb : RingBuffer T N} (h : rb.count = 0) :
    rb.is_empty = true := by
  simp [is_empty, h]

lemma new_Inv {d : T} (hN : 0 < N) : (new d : RingBuffer T N).Inv := by
  refine ⟨hN, hN, Nat.zero_le _, ?_⟩
  simp [new]

lemma toList_new (d : T) : (new d : RingBuffer T N).toList = [] := by
  simp [toList, new]

lemma Inv.posN {rb : RingBuffer T N} (h : rb.Inv) : 0 < N := by
  rcases h with ⟨h1, -, -, -⟩
  omega

lemma push_back_full {rb : RingBuffer T N} (h : rb.count = N) (x : T) :
    rb.push_back x = (false, rb) := by
  simp [push_back, is_full_true h]

lemma push_front_full {rb : RingBuffer T N} (h : rb.count = N) (x : T) :
    rb.push_front x = (false, rb) := by
  simp [push_front, is_full_true h]

lemma pop_front_empty {rb : RingBuffer T N} (h : rb.count = 0) :
    rb.pop_front = (none, rb) := by
  simp [pop_front, is_empty_true h]

lemma pop_back_empty {rb : RingBuffer T N} (h : rb.count = 0) :
    rb.pop_back = (none, rb) := by
  simp [pop_back, is_empty_true h]

lemma push_back_notfull {rb : RingBuffer T N} (h : rb.count ≠ N) (x : T) :
    rb.push_back x =
      (true,
        { rb with
          buffer := fun i => if i = rb.head then x else rb.buffer i
          head := (rb.head + 1) % N
          count := rb.count + 1 }) := by
  simp [push_back, is_full_false h]

lemma push_front_notfull {rb : RingBuffer T N} (h : rb.count ≠ N) (x : T) :
    rb.push_front x =
      (true,
        { rb with
          buffer := fun i =>
            if i = (if rb.tail == 0 then N - 1 else rb.tail - 1) then x
            else rb.buffer i
          tail := if rb.tail == 0 then N - 1 else rb.tail - 1
          count := rb.count + 1 }) := by
  simp [push_front, is_full_false h]

lemma pop_front_notempty {rb : RingBuffer T N} (h : rb.count ≠ 0) :
    rb.pop_front =
      (some (rb.buffer rb.tail),
        { rb with tail := (rb.tail + 1) % N, count := rb.count - 1 }) := by
  simp [pop_front, is_empty_false h]

lemma pop_back_notempty {rb : RingBuffer T N} (h : rb.count ≠ 0) :
    rb.pop_back =
      (some (rb.buffer (if rb.head == 0 then N - 1 else rb.head - 1)),
        { rb with
          head := if rb.head == 0 then N - 1 else rb.head - 1
          count := rb.count - 1 }) := by
  simp [pop_back, is_empty_false h]

lemma wrap_pred_lt {N t : Nat} (hN : 0 < N) (ht : t < N) :
    (if (t == 0 : Bool) then N - 1 else t - 1) < N := by
  by_cases h : t = 0 <;> simp [h] <;> omega

lemma wrap_pred_succ_mod {N t : Nat} (hN : 0 < N) (ht : t < N) :
    ((if (t == 0 : Bool) then N - 1 else t - 1) + 1) % N = t := by
  by_cases h : t = 0
  · simp [h]
    rw [show N - 1 + 1 = N by omega, Nat.mod_self]
  · simp [h]
    rw [show t - 1 + 1 = t by omega, Nat.mod_eq_of_lt ht]

lemma clear_Inv {rb : RingBuffer T N} (hN : 0 < N) : (rb.clear).Inv := by
  refine ⟨hN, hN, Nat.zero_le _, ?_⟩
  simp [clear]

lemma push_back_Inv {rb : RingBuffer T N} (hInv : rb.Inv) (x : T) :
    ((rb.push_back x).2).Inv := by
  obtain ⟨hh, ht, hc, hrel⟩ := hInv
  have hN : 0 < N := by omega
  by_cases hfull : rb.count = N
  · rw [push_back_full hfull]
    exact ⟨hh, ht, hc, hrel⟩
  · rw [push_back_notfull hfull]
    refine ⟨Nat.mod_lt _ hN, ht, show rb.count + 1 ≤ N by omega, ?_⟩
    show (rb.head + 1) % N = (rb.tail + (rb.count + 1)) % N
    rw [hrel, Nat.mod_add_mod,
      show rb.tail + rb.count + 1 = rb.tail + (rb.count + 1) by omega]

lemma push_front_Inv {rb : RingBuffer T N} (hInv : rb.Inv) (x : T) :
    ((rb.push_front x).2).Inv := by
  obtain ⟨hh, ht, hc, hrel⟩ := hInv
  have hN : 0 < N := by omega
  by_cases hfull : rb.count = N
  · rw [push_front_full hfull]
    exact ⟨hh, ht, hc, hrel⟩
  · rw [push_front_notfull hfull]
    refine ⟨hh, wrap_pred_lt hN ht, show rb.count + 1 ≤ N by omega, ?_⟩
    show rb.head =
      ((if (rb.tail == 0 : Bool) then N - 1 else rb.tail - 1) + (rb.count + 1)) % N
    rw [show (if (rb.tail == 0 : Bool) then N - 1 else rb.tail - 1) + (rb.count + 1)
        = ((if (rb.tail == 0 : Bool) then N - 1 else rb.tail - 1) + 1) + rb.count
      by omega]
    rw [← Nat.mod_add_mod, wrap_pred_succ_mod hN ht]
    exact hrel

lemma pop_front_Inv {rb : RingBuffer T N} (hInv : rb.Inv) :
    ((rb.pop_front).2).Inv := by
  obtain ⟨hh, ht, hc, hrel⟩ := hInv
  have hN : 0 < N := by omega
  by_cases hempty : rb.count = 0
  · rw [pop_front_empty hempty]
    exact ⟨hh, ht, hc, hrel⟩
  · rw [pop_front_notempty hempty]
    refine ⟨hh, Nat.mod_lt _ hN, show rb.count - 1 ≤ N by omega, ?_⟩
    show rb.head = ((rb.tail + 1) % N + (rb.count - 1)) % N
    rw [Nat.mod_add_mod, show rb.tail + 1 + (rb.count - 1) = rb.tail + rb.count
      by omega]
    exact hrel

lemma pop_back_Inv {rb : RingBuffer T N} (hInv : rb.Inv) :
    ((rb.pop_back).2).Inv := by
  obtain ⟨hh, ht, hc, hrel⟩ := hInv
  have hN : 0 < N := by omega
  by_cases hempty : rb.count = 0
  · rw [pop_back_empty hempty]
    exact ⟨hh, ht, hc, hrel⟩
  · rw [pop_back_notempty hempty]
    refine ⟨wrap_pred_lt hN hh, ht, show rb.count - 1 ≤ N by omega, ?_⟩
    show (if (rb.head == 0 : Bool) then N - 1 else rb.head - 1) =
      (rb.tail + (rb.count - 1)) % N
    have hm : 0 < rb.tail + rb.count := by omega
    have hpred := mod_pred_eq (N := N) (m := rb.tail + rb.count) hN hm
    rw [show rb.tail + (rb.count - 1) = rb.tail + rb.count - 1 by omega, hpred,
      ← hrel]
    by_cases hz : rb.head = 0
    · simp [hz]
    · simp [hz]

lemma push_back_toList {rb : RingBuffer T N} (hInv : rb.Inv)
    (hlt : rb.count < N) (x : T) :
    ((rb.push_back x).2).toList = rb.toList ++ [x] := by
  obtain ⟨hh, ht, hc, hrel⟩ := hInv
  rw [push_back_notfull (by omega)]
  simp only [toList]
  rw [List.range_succ, List.map_append]
  congr 1
  · apply map_range_congr
    intro i hi
    have hne : (rb.tail + i) % N ≠ rb.head := by
      rw [hrel]
      exact mod_add_cancel_ne hlt hi
    simp [hne]
  · simp [hrel]

lemma push_front_toList {rb : RingBuffer T N} (hInv : rb.Inv)
    (hlt : rb.count < N) (x : T) :
    ((rb.push_front x).2).toList = x :: rb.toList := by
  obtain ⟨hh, ht, hc, hrel⟩ := hInv
  have hN : 0 < N := by omega
  set t := if (rb.tail == 0 : Bool) then N - 1 else rb.tail - 1 with hdef
  have htN : t < N := wrap_pred_lt hN ht
  have hts : (t + 1) % N = rb.tail := wrap_pred_succ_mod hN ht
  have key : ∀ i, (t + (i + 1)) % N = (rb.tail + i) % N := by
    intro i
    rw [show t + (i + 1) = (t + 1) + i by omega, ← Nat.mod_add_mod, hts]
  have hne : ∀ i, i < rb.count → (rb.tail + i) % N ≠ t := by
    intro i hi heq
    have h1 : (t + (i + 1)) % N = t % N := by
      rw [key i, heq, Nat.mod_eq_of_lt htN]
    have h1' : t + (i + 1) ≡ t + 0 [MOD N] := by
      show (t + (i + 1)) % N = (t + 0) % N
      rw [h1, Nat.add_zero]
    have h2 : i + 1 ≡ 0 [MOD N] := Nat.ModEq.add_left_cancel' t h1'
    have h3 : (i + 1) % N = 0 % N := h2
    rw [Nat.mod_eq_of_lt (by omega), Nat.zero_mod] at h3
    omega
  rw [push_front_notfull (by omega), ← hdef]
  simp only [toList]
  rw [List.range_succ_eq_map, List.map_cons, List.map_map]
  congr 1
  · simp [Nat.mod_eq_of_lt htN]
  · apply map_range_congr
    intro i hi
    simp only [Function.comp]
    rw [show Nat.succ i = i + 1 from rfl, key i, if_neg (hne i hi)]

lemma pop_front_toList {rb : RingBuffer T N} (hInv : rb.Inv)
    (hc : rb.count ≠ 0) :
    rb.toList = rb.buffer rb.tail :: ((rb.pop_front).2).toList := by
  obtain ⟨hh, ht, hcle, hrel⟩ := hInv
  rw [pop_front_notempty hc]
  obtain ⟨c, hcc⟩ : ∃ c, rb.count = c + 1 := ⟨rb.count - 1, by omega⟩
  simp only [toList, hcc, Nat.add_sub_cancel]
  rw [List.range_succ_eq_map, List.map_cons, List.map_map]
  congr 1
  · simp [Nat.mod_eq_of_lt ht]
  · apply map_range_congr
    intro i hi
    simp only [Function.comp]
    rw [Nat.mod_add_mod, show Nat.succ i = i + 1 from rfl,
      show rb.tail + 1 + i = rb.tail + (i + 1) by omega]

/-! ## The bulk-insertion loops -/

lemma push_back_count_notfull {rb : RingBuffer T N} (h : rb.count ≠ N)
    (x : T) : ((rb.push_back x).2).count = rb.count + 1 := by
  rw [push_back_notfull h]

lemma push_front_count_notfull {rb : RingBuffer T N} (h : rb.count ≠ N)
    (x : T) : ((rb.push_front x).2).count = rb.count + 1 := by
  rw [push_front_notfull h]

lemma pbmLoop_spec (l : List T) :
    ∀ (rb : RingBuffer T N) (a : Nat), rb.Inv →
      (rb.pbmLoop l a).1 = a + min l.length (N - rb.count) ∧
      ((rb.pbmLoop l a).2).Inv ∧
      ((rb.pbmLoop l a).2).toList = rb.toList ++ l.take (N - rb.count) := by
  induction l with
  | nil =>
    intro rb a hInv
    simp [pbmLoop, hInv]
  | cons x rest ih =>
    intro rb a hInv
    by_cases hfull : rb.count = N
    · have hNsub : N - rb.count = 0 := by omega
      have hstep : rb.pbmLoop (x :: rest) a = (a, rb) := by
        simp only [pbmLoop, push_back_full hfull]
      rw [hstep, hNsub]
      simp [hInv]
    · have hc : rb.count ≤ N := hInv.2.2.1
      have hlt : rb.count < N := by omega
      have hstep :
          rb.pbmLoop (x :: rest) a = pbmLoop (rb.push_back x).2 rest (a + 1) := by
        simp only [pbmLoop, push_back_notfull hfull]
      have hcnt := push_back_count_notfull hfull x
      obtain ⟨ih1, ih2, ih3⟩ := ih (rb.push_back x).2 (a + 1) (push_back_Inv hInv x)
      rw [hstep]
      refine ⟨?_, ih2, ?_⟩
      · rw [ih1, hcnt]
        simp only [List.length_cons]
        omega
      · rw [ih3, push_back_toList hInv hlt, hcnt,
          show N - rb.count = (N - (rb.count + 1)) + 1 by omega,
          List.take_succ_cons]
        simp

lemma pfmLoop_spec (l : List T) :
    ∀ (rb : RingBuffer T N) (a : Nat), rb.Inv →
      (rb.pfmLoop l a).1 = a + min l.length (N - rb.count) ∧
      ((rb.pfmLoop l a).2).Inv ∧
      ((rb.pfmLoop l a).2).toList = (l.take (N - rb.count)).reverse ++ rb.toList := by
  induction l with
  | nil =>
    intro rb a hInv
    simp [pfmLoop, hInv]
  | cons x rest ih =>
    intro rb a hInv
    by_cases hfull : rb.count = N
    · have hNsub : N - rb.count = 0 := by omega
      have hstep : rb.pfmLoop (x :: rest) a = (a, rb) := by
        simp only [pfmLoop, push_front_full hfull]
      rw [hstep, hNsub]
      simp [hInv]
    · have hc : rb.count ≤ N := hInv.2.2.1
      have hlt : rb.count < N := by omega
      have hstep :
          rb.pfmLoop (x :: rest) a = pfmLoop (rb.push_front x).2 rest (a + 1) := by
        simp only [pfmLoop, push_front_notfull hfull]
      have hcnt := push_front_count_notfull hfull x
      obtain ⟨ih1, ih2, ih3⟩ := ih (rb.push_front x).2 (a + 1) (push_front_Inv hInv x)
      rw [hstep]
      refine ⟨?_, ih2, ?_⟩
      · rw [ih1, hcnt]
        simp only [List.length_cons]
        omega
      · rw [ih3, push_front_toList hInv hlt, hcnt,
          show N - rb.count = (N - (rb.count + 1)) + 1 by omega,
          List.take_succ_cons]
        simp

/-! ## Bare push sequences -/

lemma pushBackAll_spec (xs : List T) :
    ∀ (rb : RingBuffer T N), rb.Inv →
      (rb.pushBackAll xs).Inv ∧
      (rb.pushBackAll xs).toList = rb.toList ++ xs.take (N - rb.count) := by
  induction xs with
  | nil =>
    intro rb hInv
    simp [pushBackAll, hInv]
  | cons x rest ih =>
    intro rb hInv
    have hfold : rb.pushBackAll (x :: rest) = ((rb.push_back x).2).pushBackAll rest := rfl
    by_cases hfull : rb.count = N
    · have hstate : (rb.push_back x).2 = rb := by rw [push_back_full hfull]
      obtain ⟨ih1, ih2⟩ := ih rb hInv
      rw [hfold, hstate]
      refine ⟨ih1, ?_⟩
      rw [ih2, show N - rb.count = 0 by omega]
      rfl
    · have hc : rb.count ≤ N := hInv.2.2.1
      have hlt : rb.count < N := by omega
      have hcnt := push_back_count_notfull hfull x
      obtain ⟨ih1, ih2⟩ := ih (rb.push_back x).2 (push_back_Inv hInv x)
      rw [hfold]
      refine ⟨ih1, ?_⟩
      rw [ih2, push_back_toList hInv hlt, hcnt,
        show N - rb.count = (N - (rb.count + 1)) + 1 by omega,
        List.take_succ_cons]
      simp

lemma pushFrontAll_spec (xs : List T) :
    ∀ (rb : RingBuffer T N), rb.Inv →
      (rb.pushFrontAll xs).Inv ∧
      (rb.pushFrontAll xs).toList = (xs.take (N - rb.count)).reverse ++ rb.toList := by
  induction xs with
  | nil =>
    intro rb hInv
    simp [pushFrontAll, hInv]
  | cons x rest ih =>
    intro rb hInv
    have hfold : rb.pushFrontAll (x :: rest) = ((rb.push_front x).2).pushFrontAll rest := rfl
    by_cases hfull : rb.count = N
    · have hstate : (rb.push_front x).2 = rb := by rw [push_front_full hfull]
      obtain ⟨ih1, ih2⟩ := ih rb hInv
      rw [hfold, hstate]
      refine ⟨ih1, ?_⟩
      rw [ih2, show N - rb.count = 0 by omega]
      rfl
    · have hc : rb.count ≤ N := hInv.2.2.1
      have hlt : rb.count < N := by omega
      have hcnt := push_front_count_notfull hfull x
      obtain ⟨ih1, ih2⟩ := ih (rb.push_front x).2 (push_front_Inv hInv x)
      rw [hfold]
      refine ⟨ih1, ?_⟩
      rw [ih2, push_front_toList hInv hlt, hcnt,
        show N - rb.count = (N - (rb.count + 1)) + 1 by omega,
        List.take_succ_cons]
      simp

/-! ## Draining by repeated pops, and the iterator -/

lemma drainFront_eq_toList (fuel : Nat) :
    ∀ (rb : RingBuffer T N), rb.Inv → rb.count = fuel →
      drainFront fuel rb = rb.toList := by
  induction fuel with
  | zero =>
    intro rb hInv hc
    simp [drainFront, toList, hc]
  | succ c ih =>
    intro rb hInv hc
    have hne : rb.count ≠ 0 := by omega
    have hpop := pop_front_notempty hne
    have hstep : drainFront (c + 1) rb =
        rb.buffer rb.tail :: drainFront c ((rb.pop_front).2) := by
      simp only [drainFront]
      rw [hpop]
    have hcnt : ((rb.pop_front).2).count = c := by
      rw [hpop]
      show rb.count - 1 = c
      omega
    rw [hstep, ih _ (pop_front_Inv hInv) hcnt]
    exact (pop_front_toList hInv hne).symm

lemma popAll_eq_toList {rb : RingBuffer T N} (hInv : rb.Inv) :
    rb.popAll = rb.toList :=
  drainFront_eq_toList rb.count rb hInv rfl

lemma drain_range (hN : 0 < N) (rem : Nat) :
    ∀ (cur : Nat) (rb : RingBuffer T N), cur < N →
      RingBufferIter.drain rem ⟨rb, cur, rem⟩ =
        (List.range rem).map (fun i => rb.buffer ((cur + i) % N)) := by
  induction rem with
  | zero =>
    intro cur rb hcur
    rfl
  | succ r ih =>
    intro cur rb hcur
    have hstep : RingBufferIter.drain (r + 1) ⟨rb, cur, r + 1⟩ =
        rb.buffer cur :: RingBufferIter.drain r ⟨rb, (cur + 1) % N, r⟩ := rfl
    rw [hstep, ih ((cur + 1) % N) rb (Nat.mod_lt _ hN)]
    rw [List.range_succ_eq_map, List.map_cons, List.map_map]
    congr 1
    · simp [Nat.mod_eq_of_lt hcur]
    · apply map_range_congr
      intro i hi
      simp only [Function.comp]
      rw [Nat.mod_add_mod, show cur + 1 + i = cur + (i + 1) by omega]

lemma iter_toList {rb : RingBuffer T N} (hInv : rb.Inv) :
    rb.iter.toList = rb.toList := by
  obtain ⟨hh, ht, hc, hrel⟩ := hInv
  have hN : 0 < N := by omega
  show RingBufferIter.drain rb.count ⟨rb, rb.tail, rb.count⟩ = rb.toList
  rw [drain_range hN rb.count rb.tail rb ht]
  rfl

/-! ## Invariant preservation over the whole interface -/

lemma applyOp_Inv {rb : RingBuffer T N} (hInv : rb.Inv) (op : Op T) :
    (rb.applyOp op).Inv := by
  have hN : 0 < N := hInv.posN
  cases op with
  | pushBackOp x => exact push_back_Inv hInv x
  | pushFrontOp x => exact push_front_Inv hInv x
  | popBackOp => exact pop_back_Inv hInv
  | popFrontOp => exact pop_front_Inv hInv
  | pushBackMultipleOp xs => exact (pbmLoop_spec xs rb 0 hInv).2.1
  | pushFrontMultipleOp xs => exact (pfmLoop_spec xs.reverse rb 0 hInv).2.1
  | clearOp => exact clear_Inv hN
  | frontOp => exact hInv
  | backOp => exact hInv
  | iterOp => exact hInv

lemma runOps_Inv (ops : List (Op T)) :
    ∀ (rb : RingBuffer T N), rb.Inv → (rb.runOps ops).Inv := by
  induction ops with
  | nil =>
    intro rb h
    exact h
  | cons op rest ih =>
    intro rb h
    exact ih _ (applyOp_Inv h op)

lemma take_battle_cards_cards (h : PlayerHand) (bb : RingBuffer Card 52)
    (hbb : bb.Inv) :
    (h.take_battle_cards bb).cards = h.cards.pushFrontAll bb.toList := by
  show h.cards.pushFrontAll bb.iter.toList = h.cards.pushFrontAll bb.toList
  rw [iter_toList hbb]

end RingBuffer

/-! ## The claims -/

open RingBuffer

/-- C1: for any sequence of `push_back` calls on a positive-capacity
buffer followed by `pop_front` calls, the successfully pushed elements
(the first `N` offered) emerge in exactly their insertion order, and
Scenario A holds on a capacity-3 buffer: pushes of 1, 2, 3 fill it, a
fourth push is rejected leaving `len = 3`, popping yields 1, a push of 4
then succeeds, and the remaining pops yield 2, 3, 4 across wraparound. -/
theorem claim_C1 (T : Type) (N : Nat) (d : T) (xs : List T) (hN : 0 < N) :
    (((RingBuffer.new d : RingBuffer T N).pushBackAll xs).popAll = xs.take N) ∧
    (let s0 : RingBuffer Nat 3 := RingBuffer.new 0
     let r1 := s0.push_back 1
     let r2 := r1.2.push_back 2
     let r3 := r2.2.push_back 3
     let r4 := r3.2.push_back 4
     let r5 := r3.2.pop_front
     let r6 := r5.2.push_back 4
     r1.1 = true ∧ r2.1 = true ∧ r3.1 = true ∧ r3.2.is_full = true ∧
       r4.1 = false ∧ r4.2.len = 3 ∧ r5.1 = some 1 ∧ r6.1 = true ∧
       r6.2.popAll = [2, 3, 4]) := by
  constructor
  · have hInv : (RingBuffer.new d : RingBuffer T N).Inv := new_Inv hN
    obtain ⟨hI, htl⟩ := pushBackAll_spec xs (RingBuffer.new d) hInv
    rw [popAll_eq_toList hI, htl, toList_new]
    show [] ++ xs.take (N - 0) = xs.take N
    simp
  · decide

/-- C1 witness: the general FIFO statement applied on a capacity-3
buffer to the push sequence 1, 2, 3, 4. -/
theorem claim_C1_witness :
    ((RingBuffer.new 0 : RingBuffer Nat 3).pushBackAll [1, 2, 3, 4]).popAll =
      [1, 2, 3, 4].take 3 :=
  (claim_C1 Nat 3 0 [1, 2, 3, 4] (by decide)).1

/-- C2: every buffer state reachable from `new` through any sequence of
public calls keeps `head < N`, `tail < N` and `count ≤ N`; in particular
no operation pushes `count` past the capacity. -/
theorem claim_C2 (T : Type) (N : Nat) (d : T) (ops : List (Op T))
    (hN : 0 < N) :
    ((RingBuffer.new d : RingBuffer T N).runOps ops).head < N ∧
    ((RingBuffer.new d : RingBuffer T N).runOps ops).tail < N ∧
    ((RingBuffer.new d : RingBuffer T N).runOps ops).count ≤ N := by
  obtain ⟨h1, h2, h3, -⟩ := runOps_Inv ops (RingBuffer.new d) (new_Inv hN)
  exact ⟨h1, h2, h3⟩

/-- C2 witness: the invariant after a wraparound-heavy call sequence on a
capacity-2 buffer. -/
theorem claim_C2_witness :
    ((RingBuffer.new 0 : RingBuffer Nat 2).runOps
      [Op.pushBackOp 1, Op.pushBackOp 2, Op.popFrontOp, Op.pushBackOp 3,
        Op.pushFrontOp 4, Op.popBackOp, Op.pushBackMultipleOp [5, 6, 7],
        Op.clearOp, Op.pushFrontMultipleOp [8, 9]]).head < 2 ∧
    ((RingBuffer.new 0 : RingBuffer Nat 2).runOps
      [Op.pushBackOp 1, Op.pushBackOp 2, Op.popFrontOp, Op.pushBackOp 3,
        Op.pushFrontOp 4, Op.popBackOp, Op.pushBackMultipleOp [5, 6, 7],
        Op.clearOp, Op.pushFrontMultipleOp [8, 9]]).tail < 2 ∧
    ((RingBuffer.new 0 : RingBuffer Nat 2).runOps
      [Op.pushBackOp 1, Op.pushBackOp 2, Op.popFrontOp, Op.pushBackOp 3,
        Op.pushFrontOp 4, Op.popBackOp, Op.pushBackMultipleOp [5, 6, 7],
        Op.clearOp, Op.pushFrontMultipleOp [8, 9]]).count ≤ 2 :=
  claim_C2 Nat 2 0
    [Op.pushBackOp 1, Op.pushBackOp 2, Op.popFrontOp, Op.pushBackOp 3,
      Op.pushFrontOp 4, Op.popBackOp, Op.pushBackMultipleOp [5, 6, 7],
      Op.clearOp, Op.pushFrontMultipleOp [8, 9]] (by decide)

/-- C3: a full buffer rejects `push_back` and `push_front`, each call
returning `false` with the whole state unchanged; and from empty,
pushing exactly `N` elements succeeds, after which either kind of push
fails and leaves `len` unchanged. -/
theorem claim_C3 (T : Type) (N : Nat) (rb : RingBuffer T N) (x d : T)
    (xs : List T) (hfull : rb.len = rb.capacity) (hlen : xs.length = N) :
    rb.push_back x = (false, rb) ∧
    rb.push_front x = (false, rb) ∧
    ((RingBuffer.new d : RingBuffer T N).push_back_multiple xs).1 = xs.length ∧
    (((RingBuffer.new d : RingBuffer T N).push_back_multiple xs).2).len = N ∧
    ((((RingBuffer.new d : RingBuffer T N).push_back_multiple xs).2).push_back x).1
        = false ∧
    (((((RingBuffer.new d : RingBuffer T N).push_back_multiple xs).2).push_back x).2).len
        = N ∧
    ((((RingBuffer.new d : RingBuffer T N).push_back_multiple xs).2).push_front x).1
        = false ∧
    (((((RingBuffer.new d : RingBuffer T N).push_back_multiple xs).2).push_front x).2).len
        = N := by
  have hcfull : rb.count = N := hfull
  refine ⟨push_back_full hcfull x, push_front_full hcfull x, ?_⟩
  by_cases hN : N = 0
  · subst hN
    have hnil : xs = [] := List.eq_nil_of_length_eq_zero hlen
    subst hnil
    exact ⟨rfl, rfl, rfl, rfl, rfl, rfl⟩
  · have hN' : 0 < N := Nat.pos_of_ne_zero hN
    have hInv : (RingBuffer.new d : RingBuffer T N).Inv := new_Inv hN'
    obtain ⟨h1, h2, h3⟩ := pbmLoop_spec xs (RingBuffer.new d) 0 hInv
    have hcount : (((RingBuffer.new d : RingBuffer T N).push_back_multiple xs).2).count
        = N := by
      show ((pbmLoop (RingBuffer.new d) xs 0).2).count = N
      rw [← toList_length, h3, toList_new]
      show ([] ++ xs.take (N - 0)).length = N
      simp [hlen]
    refine ⟨?_, hcount, ?_, ?_, ?_, ?_⟩
    · rw [show ((RingBuffer.new d : RingBuffer T N).push_back_multiple xs).1
          = (pbmLoop (RingBuffer.new d) xs 0).1 from rfl, h1, hlen]
      show 0 + min N (N - 0) = N
      simp
    · rw [push_back_full hcount]
    · rw [push_back_full hcount]
      exact hcount
    · rw [push_front_full hcount]
    · rw [push_front_full hcount]
      exact hcount

/-- C3 witness: the saturation behaviour on a full one-slot buffer and
the fill-then-reject cycle from empty. -/
theorem claim_C3_witness :
    (RingBuffer.mk (fun _ => 0) 0 0 1 : RingBuffer Nat 1).push_back 5 =
      (false, RingBuffer.mk (fun _ => 0) 0 0 1) :=
  (claim_C3 Nat 1 (RingBuffer.mk (fun _ => 0) 0 0 1) 5 0 [7] rfl rfl).1

/-- C4: on an empty buffer, `pop_front`, `pop_back`, `front` and `back`
all return the no-value result with the state (hence `len`, `head`,
`tail`) unchanged. -/
theorem claim_C4 (T : Type) (N : Nat) (rb : RingBuffer T N)
    (hempty : rb.len = 0) :
    rb.pop_front = (none, rb) ∧ rb.pop_back = (none, rb) ∧
    rb.front = none ∧ rb.back = none := by
  have hc : rb.count = 0 := hempty
  exact ⟨pop_front_empty hc, pop_back_empty hc,
    by simp [front, is_empty_true hc], by simp [back, is_empty_true hc]⟩

/-- C4 witness: exhaustion behaviour on a fresh capacity-2 buffer. -/
theorem claim_C4_witness :
    (RingBuffer.new 0 : RingBuffer Nat 2).pop_front =
      (none, RingBuffer.new 0) :=
  (claim_C4 Nat 2 (RingBuffer.new 0) rfl).1

/-- C5: `push_front_multiple` processes the items in reverse of the
given order, stops at the first rejection, and returns the number
actually inserted; on full success `items[0]` ends up frontmost, and on
an empty capacity-3 buffer the items `[1,2,3]` come back out of
`pop_front` as 1, 2, 3. -/
theorem claim_C5 (T : Type) (N : Nat) (rb : RingBuffer T N)
    (items : List T) (hInv : rb.Inv) :
    (rb.push_front_multiple items).1 = min items.length (N - rb.count) ∧
    (items.length + rb.count ≤ N →
      (rb.push_front_multiple items).1 = items.length ∧
      ((rb.push_front_multiple items).2).toList = items ++ rb.toList) ∧
    (((RingBuffer.new 0 : RingBuffer Nat 3).push_front_multiple [1, 2, 3]).2).popAll
      = [1, 2, 3] := by
  obtain ⟨h1, h2, h3⟩ := pfmLoop_spec items.reverse rb 0 hInv
  have hfst : (rb.push_front_multiple items).1 = min items.length (N - rb.count) := by
    show (pfmLoop rb items.reverse 0).1 = min items.length (N - rb.count)
    rw [h1, List.length_reverse]
    omega
  refine ⟨hfst, fun hroom => ⟨?_, ?_⟩, by decide⟩
  · rw [hfst]
    omega
  · show ((pfmLoop rb items.reverse 0).2).toList = items ++ rb.toList
    rw [h3, List.take_of_length_le (by rw [List.length_reverse]; omega),
      List.reverse_reverse]

/-- C5 witness: the count of insertions on a concrete non-empty
capacity-4 buffer. -/
theorem claim_C5_witness :
    ((RingBuffer.new 0 : RingBuffer Nat 4).push_front_multiple [5, 6]).1 =
      min 2 4 :=
  (claim_C5 Nat 4 (RingBuffer.new 0) [5, 6] (by decide)).1

/-- C6: `push_back_multiple` pushes the items to the back in order, one
at a time, stopping at the first rejection and returning the count
actually inserted, with the inserted prefix left in place; Scenario C
holds on an empty capacity-4 buffer. -/
theorem claim_C6 (T : Type) (N : Nat) (rb : RingBuffer T N)
    (items : List T) (hInv : rb.Inv) :
    (rb.push_back_multiple items).1 = min items.length (N - rb.count) ∧
    ((rb.push_back_multiple items).2).toList =
      rb.toList ++ items.take (N - rb.count) ∧
    (((RingBuffer.new 0 : RingBuffer Nat 4).push_back_multiple
        [10, 20, 30, 40, 50]).1 = 4 ∧
      (((RingBuffer.new 0 : RingBuffer Nat 4).push_back_multiple
        [10, 20, 30, 40, 50]).2).len = 4 ∧
      (((RingBuffer.new 0 : RingBuffer Nat 4).push_back_multiple
        [10, 20, 30, 40, 50]).2).toList = [10, 20, 30, 40]) := by
  obtain ⟨h1, h2, h3⟩ := pbmLoop_spec items rb 0 hInv
  refine ⟨?_, h3, by decide⟩
  show (pbmLoop rb items 0).1 = min items.length (N - rb.count)
  rw [h1]
  omega

/-- C6 witness: the truncated bulk insertion on a capacity-2 buffer. -/
theorem claim_C6_witness :
    ((RingBuffer.new 0 : RingBuffer Nat 2).push_back_multiple [7, 8, 9]).1 =
      min 3 2 :=
  (claim_C6 Nat 2 (RingBuffer.new 0) [7, 8, 9] (by decide)).1

/-- C7: `iter` yields exactly the logical front-to-back contents — the
same sequence repeated `pop_front` calls return — its length is `len` at
the time of the call, and the size hint reports exactly that many
remaining elements. -/
theorem claim_C7 (T : Type) (N : Nat) (rb : RingBuffer T N)
    (hInv : rb.Inv) :
    rb.iter.toList = rb.toList ∧
    rb.iter.toList.length = rb.len ∧
    rb.iter.toList = rb.popAll ∧
    rb.iter.size_hint = (rb.len, some rb.len) := by
  have h1 := iter_toList hInv
  refine ⟨h1, ?_, ?_, rfl⟩
  · rw [h1, toList_length]
    rfl
  · rw [h1, popAll_eq_toList hInv]

/-- C7 witness: the iterator of a two-element capacity-3 buffer. -/
theorem claim_C7_witness :
    ((RingBuffer.new 0 : RingBuffer Nat 3).pushBackAll [4, 5]).iter.toList =
      ((RingBuffer.new 0 : RingBuffer Nat 3).pushBackAll [4, 5]).toList :=
  (claim_C7 Nat 3 ((RingBuffer.new 0 : RingBuffer Nat 3).pushBackAll [4, 5])
    (by decide)).1

/-- C8: for any sequence of `push_front` calls followed by `pop_front`
calls, the accepted elements emerge in reverse of their insertion order
(LIFO at the front), and Scenario B holds on a capacity-5 buffer:
`push_front(1)` then `push_front(2)` gives the logical order `[2, 1]`,
`pop_front` returns 2 then 1, and the buffer is empty afterwards. -/
theorem claim_C8 (T : Type) (N : Nat) (d : T) (xs : List T) (hN : 0 < N) :
    (((RingBuffer.new d : RingBuffer T N).pushFrontAll xs).popAll =
      (xs.take N).reverse) ∧
    (let s0 : RingBuffer Nat 5 := RingBuffer.new 0
     let r1 := s0.push_front 1
     let r2 := r1.2.push_front 2
     let p1 := r2.2.pop_front
     let p2 := p1.2.pop_front
     r1.1 = true ∧ r2.1 = true ∧ r2.2.toList = [2, 1] ∧
       p1.1 = some 2 ∧ p2.1 = some 1 ∧ p2.2.is_empty = true) := by
  constructor
  · obtain ⟨hI, htl⟩ := pushFrontAll_spec xs (RingBuffer.new d) (new_Inv hN)
    rw [popAll_eq_toList hI, htl, toList_new]
    show (xs.take (N - 0)).reverse ++ [] = (xs.take N).reverse
    simp
  · decide

/-- C8 witness: the LIFO statement applied on a capacity-2 buffer to the
push sequence 1, 2, 3. -/
theorem claim_C8_witness :
    ((RingBuffer.new 0 : RingBuffer Nat 2).pushFrontAll [1, 2, 3]).popAll =
      ([1, 2, 3].take 2).reverse :=
  (claim_C8 Nat 2 0 [1, 2, 3] (by decide)).1

/-- C9: the claim says a zero capacity must be rejected at construction
(or statically prevented).  The source's `RingBuffer::new` has no such
guard: at `N = 0` construction succeeds and silently yields a buffer
that is simultaneously full and empty and rejects every push — exactly
the outcome §7 of the spec says must not occur. -/
theorem claim_C9 (x : Nat) :
    (RingBuffer.new 7 : RingBuffer Nat 0).is_full = true ∧
    (RingBuffer.new 7 : RingBuffer Nat 0).is_empty = true ∧
    (RingBuffer.new 7 : RingBuffer Nat 0).push_back x =
      (false, RingBuffer.new 7) ∧
    (RingBuffer.new 7 : RingBuffer Nat 0).push_front x =
      (false, RingBuffer.new 7) :=
  ⟨rfl, rfl, rfl, rfl⟩

/-- C10: `PlayerHand::take_battle_cards` pushes every card the pot's
iterator yields onto the hand's front in one pass; with room for all of
them the hand's new front-to-back contents are the pot's contents
reversed followed by the hand's previous contents; the pot (borrowed
immutably by `iter`) is unchanged; and cards that do not fit are
silently dropped, the count saturating at the capacity 52. -/
theorem claim_C10 (hand : PlayerHand) (pot : RingBuffer Card 52)
    (hh : hand.cards.Inv) (hp : pot.Inv) :
    ((hand.take_battle_cards pot).cards).count =
      min 52 (pot.count + hand.cards.count) ∧
    (pot.count + hand.cards.count ≤ 52 →
      ((hand.take_battle_cards pot).cards).toList =
        (pot.toList).reverse ++ hand.cards.toList) ∧
    pot.iter.buffer = pot := by
  have hc := take_battle_cards_cards hand pot hp
  obtain ⟨hI, htl⟩ := pushFrontAll_spec pot.toList hand.cards hh
  refine ⟨?_, fun hroom => ?_, rfl⟩
  · have hhc : hand.cards.count ≤ 52 := hh.2.2.1
    rw [hc, ← toList_length, htl, List.length_append, List.length_reverse,
      List.length_take, toList_length, toList_length]
    omega
  · rw [hc, htl, List.take_of_length_le (by rw [toList_length]; omega)]

/-- C10 witness: absorbing a one-card pot into a fresh hand. -/
theorem claim_C10_witness :
    ((PlayerHand.new.take_battle_cards
        (RingBuffer.mk (fun _ => Card.new Suit.Hearts Rank.Two) 1 0 1)).cards).count =
      min 52
        ((RingBuffer.mk (fun _ => Card.new Suit.Hearts Rank.Two) 1 0 1 :
            RingBuffer Card 52).count +
          PlayerHand.new.cards.count) :=
  (claim_C10 PlayerHand.new
    (RingBuffer.mk (fun _ => Card.new Suit.Hearts Rank.Two) 1 0 1)
    (by decide) (by decide)).1

end WarRust
